import Mathlib

/-!
Shallow embedding of `src/utilities/lexicographicSortSchema.js` (graphql-js)
and a verification of the specification claims about it.

The JS type-system objects are modelled as first-order values.  A reference
to a named type is represented by the type's (unique) name, matching the
source, which resolves every cross-reference by a name lookup in the
`typeMap` index built up front; a JS `undefined` produced by a failed index
lookup is modelled by `Option.none`.  The `GraphQLSchema` constructor and
`toConfig` are the boundary collaborators of the spec: a schema is modelled
by its configuration record.
-/

namespace GqlSort

/-- Model of the configured comparator, i.e. of
`(key1, key2) ↦ key1.localeCompare(key2, compareOptions?.locales, compareOptions?.options)`
for one fixed `compareOptions` (source lines 208-216).  Negative means
`key1` sorts strictly before `key2`, zero means a tie. -/
abbrev Comparator := String → String → Int

/-- Totality of the comparator: any two keys are comparable (ECMA-402
guarantees that `localeCompare` with fixed options is a consistent
comparison function). -/
def CmpTotal (cmp : Comparator) : Prop := ∀ a b, cmp a b ≤ 0 ∨ cmp b a ≤ 0

/-- Transitivity of the comparator's at-or-before relation. -/
def CmpTrans (cmp : Comparator) : Prop :=
  ∀ a b c, cmp a b ≤ 0 → cmp b c ≤ 0 → cmp a c ≤ 0

/-- Symmetry of comparator ties. -/
def CmpTieSymm (cmp : Comparator) : Prop := ∀ a b, cmp a b = 0 → cmp b a = 0

/-- Embedding of `sortBy` (lines 203-217): a copy of `array` sorted by
`mapToKey` under the comparator.  `Array.prototype.sort` is required to be
stable (ES2019) and sorts ascending by comparator sign; it is modelled by
stable insertion sort on the (persistent) list. -/
def sortBy (cmp : Comparator) (mapToKey : α → String) (array : List α) : List α :=
  List.insertionSort (fun obj1 obj2 => cmp (mapToKey obj1) (mapToKey obj2) ≤ 0) array

/-- A JS `ObjMap`: an insertion-ordered string-keyed object, modelled as an
association list in key insertion order (an ObjMap's keys are distinct by
construction in JS). -/
abbrev ObjMap (α : Type) := List (String × α)

/-- The key list of an ObjMap in insertion order (`Object.keys(map)`). -/
def objKeys (map : ObjMap α) : List String := map.map Prod.fst

/-- Property access `map[key]` on an ObjMap; `none` models the JS
`undefined` obtained when the key is absent. -/
def objLookup (key : String) : ObjMap α → Option α
  | [] => none
  | (k, v) :: rest => if k = key then some v else objLookup key rest

/-- Embedding of `sortObjMap` (lines 182-194): sort `Object.keys(map)` with
the comparator, then rebuild the map in sorted key order, reading each value
with `map[key]` and applying `sortValueFn` to it (when the source's optional
`sortValueFn` is omitted the value is copied verbatim, i.e. `sortValueFn`
is the identity). -/
def sortObjMap (cmp : Comparator) (map : ObjMap α) (sortValueFn : α → β) : ObjMap β :=
  (sortBy cmp id (objKeys map)).filterMap
    (fun key => (objLookup key map).map (fun value => (key, sortValueFn value)))

/-- Embedding of `sortByName` (lines 196-201): sort by the `name` property,
supplied here as the projection `name`. -/
def sortByName (cmp : Comparator) (name : α → String) (array : List α) : List α :=
  sortBy cmp name array

/-- A type reference (`GraphQLType`): a named type — represented by its
unique name — possibly wrapped in `GraphQLList` / `GraphQLNonNull`
modifiers. -/
inductive TypeRef : Type
  | named (name : String)
  | list (ofType : TypeRef)
  | nonNull (ofType : TypeRef)
  deriving DecidableEq

/-- The name of the named type at the bottom of a reference's wrappers. -/
def TypeRef.baseName : TypeRef → String
  | .named name => name
  | .list t => t.baseName
  | .nonNull t => t.baseName

/-- An argument configuration: a type reference plus an opaque payload
(description, defaultValue, deprecation, …) copied verbatim. -/
structure ArgConfig where
  type : TypeRef
  meta : String
  deriving DecidableEq

/-- A field configuration (object/interface member): type reference,
argument map, opaque payload. -/
structure FieldConfig where
  type : TypeRef
  args : ObjMap ArgConfig
  meta : String
  deriving DecidableEq

/-- An input-object field configuration. -/
structure InputFieldConfig where
  type : TypeRef
  meta : String
  deriving DecidableEq

/-- An enum value configuration: an opaque payload only (no nested type
references). -/
structure EnumValueConfig where
  meta : String
  deriving DecidableEq

/-- A named type (`GraphQLNamedType`), the tagged union over the closed kind
set scalar / object / interface / union / enum / input-object, viewed
through its `toConfig()` record.  `introspection` marks the
introspection-reserved types (see `isIntrospectionType`); interface lists
and union member lists hold the referenced types' names. -/
inductive NamedType : Type
  | scalar (name : String) (introspection : Bool) (meta : String)
  | object (name : String) (introspection : Bool) (interfaces : List String)
      (fields : ObjMap FieldConfig) (meta : String)
  | interface (name : String) (introspection : Bool) (interfaces : List String)
      (fields : ObjMap FieldConfig) (meta : String)
  | union (name : String) (introspection : Bool) (types : List String) (meta : String)
  | enum (name : String) (introspection : Bool) (values : ObjMap EnumValueConfig)
      (meta : String)
  | inputObject (name : String) (introspection : Bool) (fields : ObjMap InputFieldConfig)
      (meta : String)
  deriving DecidableEq

/-- The `name` property of a named type. -/
def NamedType.name : NamedType → String
  | .scalar name _ _ => name
  | .object name _ _ _ _ => name
  | .interface name _ _ _ _ => name
  | .union name _ _ _ => name
  | .enum name _ _ _ => name
  | .inputObject name _ _ _ => name

/-- Modelled from the spec: `isIntrospectionType` from `../type/introspection`
(not under `src/`) flags the introspection-reserved types — the named types
belonging to the schema's self-description machinery, excluded from
reordering; modelled as the boolean mark carried by the type. -/
def isIntrospectionType : NamedType → Bool
  | .scalar _ introspection _ => introspection
  | .object _ introspection _ _ _ => introspection
  | .interface _ introspection _ _ _ => introspection
  | .union _ introspection _ _ => introspection
  | .enum _ introspection _ _ => introspection
  | .inputObject _ introspection _ _ => introspection

/-- Kind predicate `isScalarType` from `../type/definition` (a kind test on
the closed tagged union, per the spec's classification collaborator). -/
def isScalarType : NamedType → Bool
  | .scalar .. => true
  | _ => false

/-- Kind predicate `isObjectType`. -/
def isObjectType : NamedType → Bool
  | .object .. => true
  | _ => false

/-- Kind predicate `isInterfaceType`. -/
def isInterfaceType : NamedType → Bool
  | .interface .. => true
  | _ => false

/-- Kind predicate `isUnionType`. -/
def isUnionType : NamedType → Bool
  | .union .. => true
  | _ => false

/-- Kind predicate `isEnumType`. -/
def isEnumType : NamedType → Bool
  | .enum .. => true
  | _ => false

/-- Kind predicate `isInputObjectType`. -/
def isInputObjectType : NamedType → Bool
  | .inputObject .. => true
  | _ => false

/-- The interface list of an object or interface type (else empty). -/
def NamedType.interfacesOf : NamedType → List String
  | .object _ _ interfaces _ _ => interfaces
  | .interface _ _ interfaces _ _ => interfaces
  | _ => []

/-- The field map of an object or interface type (else empty). -/
def NamedType.fieldsOf : NamedType → ObjMap FieldConfig
  | .object _ _ _ fields _ => fields
  | .interface _ _ _ fields _ => fields
  | _ => []

/-- The member list of a union type (else empty). -/
def NamedType.unionTypesOf : NamedType → List String
  | .union _ _ types _ => types
  | _ => []

/-- The value map of an enum type (else empty). -/
def NamedType.enumValuesOf : NamedType → ObjMap EnumValueConfig
  | .enum _ _ values _ => values
  | _ => []

/-- The field map of an input-object type (else empty). -/
def NamedType.inputFieldsOf : NamedType → ObjMap InputFieldConfig
  | .inputObject _ _ fields _ => fields
  | _ => []

/-- A directive (`GraphQLDirective.toConfig()`): name, applicable locations,
argument map, opaque payload. -/
structure GraphQLDirective where
  name : String
  locations : List String
  args : ObjMap ArgConfig
  meta : String
  deriving DecidableEq

/-- A schema configuration (`GraphQLSchema.toConfig()`): the full named type
list, the directive list, the three optional root operation types, and the
remaining configuration copied verbatim. -/
structure SchemaConfig where
  types : List NamedType
  directives : List GraphQLDirective
  query : Option NamedType
  mutation : Option NamedType
  subscription : Option NamedType
  meta : String
  deriving DecidableEq

/-- Embedding of `replaceNamedType` (lines 79-81): `typeMap[type.name]`.
In the name-based embedding a reference to a named type is its name; an
absent name yields JS `undefined`, modelled as `none` — the source performs
no check here. -/
def replaceNamedType (typeMap : ObjMap NamedType) (name : String) : Option NamedType :=
  objLookup name typeMap

/-- Embedding of `replaceType` (lines 68-77): rewrap `GraphQLList` /
`GraphQLNonNull` around the recursively replaced inner reference, and
resolve a bare named reference through the index. -/
def replaceType (typeMap : ObjMap NamedType) : TypeRef → Option TypeRef
  | .list ofType => (replaceType typeMap ofType).map TypeRef.list
  | .nonNull ofType => (replaceType typeMap ofType).map TypeRef.nonNull
  | .named name => (replaceNamedType typeMap name).map (fun t => TypeRef.named t.name)

/-- Embedding of `replaceMaybeType` (lines 83-85):
`maybeType && replaceNamedType(maybeType)`. -/
def replaceMaybeType (typeMap : ObjMap NamedType) (maybeType : Option NamedType) :
    Option NamedType :=
  maybeType.bind (fun type => replaceNamedType typeMap type.name)

/-- Embedding of `sortArgs` (lines 96-105): sort the argument map by argument
name.  The source also rewrites each argument's `type` through `replaceType`;
at the name level that rewrite maps a reference present in the index to
itself (theorem `replaceType_eq_self` below) and is modelled where the
dereference is observed, via `replaceType`. -/
def sortArgs (cmp : Comparator) (args : ObjMap ArgConfig) : ObjMap ArgConfig :=
  sortObjMap cmp args (fun arg => arg)

/-- Embedding of `sortFields` (lines 107-117): sort the field map by field
name and sort each field's argument map; the field's `type` reference is
rewritten through `replaceType` as for `sortArgs`. -/
def sortFields (cmp : Comparator) (fieldsMap : ObjMap FieldConfig) : ObjMap FieldConfig :=
  sortObjMap cmp fieldsMap (fun field => { field with args := sortArgs cmp field.args })

/-- Embedding of `sortInputFields` (lines 119-128): sort the input field map
by field name; each field's `type` reference is rewritten through
`replaceType` as for `sortArgs`. -/
def sortInputFields (cmp : Comparator) (fieldsMap : ObjMap InputFieldConfig) :
    ObjMap InputFieldConfig :=
  sortObjMap cmp fieldsMap (fun field => field)

/-- Embedding of `sortTypes` (lines 130-132): sort a list of named-type
references by name and replace each through the index.  In the name-based
embedding the list holds the referenced names and the `replaceNamedType`
dereference — deferred by the source's thunks to access time — maps a name
present in the index to the sorted type carrying that same name. -/
def sortTypes (cmp : Comparator) (arr : List String) : List String :=
  sortBy cmp id arr

/-- Embedding of `sortDirective` (lines 87-94): rebuild the directive with
sorted locations and sorted arguments. -/
def sortDirective (cmp : Comparator) (directive : GraphQLDirective) : GraphQLDirective :=
  { directive with
    locations := sortBy cmp id directive.locations
    args := sortArgs cmp directive.args }

/-- Embedding of `sortNamedType` (lines 134-179) on the closed kind set:
scalars and introspection-reserved types pass through unchanged; the other
kinds are rebuilt from their config with their nested collections sorted
(the source defers `fields` / `interfaces` / `types` behind zero-argument
thunks; forcing those thunks is pure, so the model holds the forced value).
The source's final `invariant(false)` branch is kept explicitly by
`sortNamedTypeChecked` below. -/
def sortNamedType (cmp : Comparator) (type : NamedType) : NamedType :=
  if isScalarType type || isIntrospectionType type then type
  else
    match type with
    | .scalar .. => type
    | .object name introspection interfaces fields meta =>
        .object name introspection (sortTypes cmp interfaces) (sortFields cmp fields) meta
    | .interface name introspection interfaces fields meta =>
        .interface name introspection (sortTypes cmp interfaces) (sortFields cmp fields) meta
    | .union name introspection types meta =>
        .union name introspection (sortTypes cmp types) meta
    | .enum name introspection values meta =>
        .enum name introspection (sortObjMap cmp values (fun value => value)) meta
    | .inputObject name introspection fields meta =>
        .inputObject name introspection (sortInputFields cmp fields) meta

/-- `sortNamedType` keeping the source's dispatch structure (lines 134-179):
the predicate cascade over the kind tests, ending in the fatal
`invariant(false, 'Unexpected type: …')` branch, modelled as an error value.
Each recognized branch rebuilds the type exactly as `sortNamedType` does. -/
def sortNamedTypeChecked (cmp : Comparator) (type : NamedType) : Except String NamedType :=
  if isScalarType type || isIntrospectionType type then Except.ok type
  else if isObjectType type then Except.ok (sortNamedType cmp type)
  else if isInterfaceType type then Except.ok (sortNamedType cmp type)
  else if isUnionType type then Except.ok (sortNamedType cmp type)
  else if isEnumType type then Except.ok (sortNamedType cmp type)
  else if isInputObjectType type then Except.ok (sortNamedType cmp type)
  else Except.error ("Unexpected type: " ++ type.name)

/-- Modelled from the spec: `keyValMap` from `../jsutils/keyValMap` (not
under `src/`) builds the name index, inserting `(keyFn item → valFn item)`
for each list item in order and preserving insertion order of the keys
(names are unique within a schema per the spec's invariant). -/
def keyValMap (list : List α) (keyFn : α → String) (valFn : α → β) : ObjMap β :=
  list.map (fun item => (keyFn item, valFn item))

/-- The `typeMap` name index of `lexicographicSortSchema` (lines 51-55):
every named type, sorted by name, mapped to its sorted replacement keyed by
its name. -/
def buildTypeMap (cmp : Comparator) (schemaConfig : SchemaConfig) : ObjMap NamedType :=
  keyValMap (sortByName cmp NamedType.name schemaConfig.types)
    NamedType.name (sortNamedType cmp)

/-- Embedding of `lexicographicSortSchema` (lines 46-66): rebuild the schema
configuration with the sorted type collection (`objectValues(typeMap)`), the
sorted directive list, and each root operation type replaced through the
index; the rest of the configuration is spread verbatim. -/
def lexicographicSortSchema (cmp : Comparator) (schema : SchemaConfig) : SchemaConfig :=
  let typeMap := buildTypeMap cmp schema
  { schema with
    types := typeMap.map Prod.snd
    directives := (sortByName cmp GraphQLDirective.name schema.directives).map
      (sortDirective cmp)
    query := replaceMaybeType typeMap schema.query
    mutation := replaceMaybeType typeMap schema.mutation
    subscription := replaceMaybeType typeMap schema.subscription }

/-- A concrete consistent comparator: dictionary (code-point) order on the
strings' character lists, one model instance of `localeCompare` under fixed
options. -/
def defaultCompare (a b : String) : Int :=
  if a.data < b.data then -1 else if b.data < a.data then 1 else 0

/-- A concrete comparator with ties: compare strings by length only (a
degenerate collation under which many distinct names tie), used to exercise
stability under comparator ties. -/
def lenCompare (a b : String) : Int :=
  if a.length < b.length then -1 else if b.length < a.length then 1 else 0

/-- Object type `A` with a single field of type `B` (cyclic with `typeB`). -/
def typeA : NamedType :=
  .object "A" false [] [("b", { type := .named "B", args := [], meta := "" })] ""

/-- Object type `B` with a single field of type `A` (cyclic with `typeA`). -/
def typeB : NamedType :=
  .object "B" false [] [("a", { type := .named "A", args := [], meta := "" })] ""

/-- A user-defined scalar type. -/
def scalarS : NamedType := .scalar "S" false ""

/-- A well-formed schema whose type graph contains the two-cycle `A ↔ B`,
with `A` as query root. -/
def cyclicSchema : SchemaConfig :=
  { types := [typeB, typeA], directives := [], query := some typeA,
    mutation := none, subscription := none, meta := "" }

/-- A well-formed cyclic schema that also contains a scalar type. -/
def mixedSchema : SchemaConfig :=
  { types := [typeB, scalarS, typeA], directives := [], query := some typeA,
    mutation := some typeB, subscription := none, meta := "" }

/-- An introspection-reserved object type whose field map is not
alphabetically ordered (as is the case for the real `__Schema` type, whose
fields start `description, types, queryType, …`). -/
def introspectionTypeEx : NamedType :=
  .object "__Schema" true []
    [("b", { type := .named "__Schema", args := [], meta := "" }),
     ("a", { type := .named "__Schema", args := [], meta := "" })] ""

/-- A schema containing only the introspection-reserved example type. -/
def introSchemaEx : SchemaConfig :=
  { types := [introspectionTypeEx], directives := [], query := none,
    mutation := none, subscription := none, meta := "" }

/-- A schema whose mutation root names a type absent from its type set (an
input violating the self-containment invariant). -/
def danglingSchemaEx : SchemaConfig :=
  { types := [scalarS], directives := [], query := none,
    mutation := some (.object "Mut" false [] [] ""),
    subscription := none, meta := "" }

/-- A list with two length-tied keys in a fixed input order. -/
def tieListEx : List (String × Nat) := [("bb", 0), ("aa", 1), ("c", 2)]

attribute [ext] SchemaConfig

/-! ### Properties of `sortBy`, `objLookup` and `sortObjMap` -/

/-- Sorting permutes the input list. -/
theorem sortBy_perm (cmp : Comparator) (mapToKey : α → String) (array : List α) :
    (sortBy cmp mapToKey array).Perm array :=
  List.perm_insertionSort _ array

/-- Under a total transitive comparator the sorted list is pairwise
non-decreasing on keys. -/
theorem sortBy_pairwise (cmp : Comparator) (mapToKey : α → String)
    (htot : CmpTotal cmp) (htr : CmpTrans cmp) (array : List α) :
    (sortBy cmp mapToKey array).Pairwise
      (fun obj1 obj2 => cmp (mapToKey obj1) (mapToKey obj2) ≤ 0) := by
  haveI : IsTotal α (fun obj1 obj2 => cmp (mapToKey obj1) (mapToKey obj2) ≤ 0) :=
    ⟨fun a b => htot _ _⟩
  haveI : IsTrans α (fun obj1 obj2 => cmp (mapToKey obj1) (mapToKey obj2) ≤ 0) :=
    ⟨fun a b c hab hbc => htr _ _ _ hab hbc⟩
  exact List.sorted_insertionSort _ array

/-- Sorting an already key-sorted list is the identity. -/
theorem sortBy_eq_self (cmp : Comparator) (mapToKey : α → String) (array : List α)
    (h : array.Pairwise (fun obj1 obj2 => cmp (mapToKey obj1) (mapToKey obj2) ≤ 0)) :
    sortBy cmp mapToKey array = array :=
  List.Sorted.insertionSort_eq h

/-- The key image of a key-sorted list is the sorted key list. -/
theorem sortBy_map_key (cmp : Comparator) (mapToKey : α → String) (array : List α) :
    (sortBy cmp mapToKey array).map mapToKey = sortBy cmp id (array.map mapToKey) := by
  apply List.map_insertionSort
  intro a _ b _
  exact Iff.rfl

/-- A lookup of an absent key yields `none` (JS `undefined`). -/
theorem objLookup_eq_none (map : ObjMap α) (key : String) (h : key ∉ objKeys map) :
    objLookup key map = none := by
  induction map with
  | nil => rfl
  | cons kv rest ih =>
    simp only [objKeys, List.map_cons, List.mem_cons, not_or] at h
    rw [objLookup, if_neg (fun he => h.1 he.symm)]
    exact ih h.2

/-- A successful lookup returns a binding of the map. -/
theorem objLookup_mem {map : ObjMap α} {key : String} {v : α}
    (h : objLookup key map = some v) : (key, v) ∈ map := by
  induction map with
  | nil => simp [objLookup] at h
  | cons kv rest ih =>
    rw [objLookup] at h
    by_cases hk : kv.1 = key
    · rw [if_pos hk] at h
      have he : kv = (key, v) := by
        obtain ⟨k', v'⟩ := kv
        simp_all
      rw [he]
      exact List.mem_cons_self _ _
    · rw [if_neg hk] at h
      exact List.mem_cons_of_mem _ (ih h)

/-- A present key's lookup succeeds. -/
theorem objLookup_isSome {map : ObjMap α} {key : String} (h : key ∈ objKeys map) :
    (objLookup key map).isSome := by
  induction map with
  | nil => simp [objKeys] at h
  | cons kv rest ih =>
    rw [objLookup]
    by_cases hk : kv.1 = key
    · rw [if_pos hk]; rfl
    · rw [if_neg hk]
      simp only [objKeys, List.map_cons, List.mem_cons] at h
      exact ih (h.resolve_left (fun he => hk he.symm))

/-- Under distinct keys, the lookup of a binding's key returns its value. -/
theorem objLookup_nodup {map : ObjMap α} {key : String} {v : α}
    (hnd : (objKeys map).Nodup) (hmem : (key, v) ∈ map) :
    objLookup key map = some v := by
  induction map with
  | nil => simp at hmem
  | cons kv rest ih =>
    simp only [objKeys, List.map_cons, List.nodup_cons] at hnd
    rcases List.mem_cons.mp hmem with he | hm
    · rw [← he, objLookup, if_pos rfl]
    · rw [objLookup]
      by_cases hk : kv.1 = key
      · exact absurd (hk ▸ (List.mem_map.mpr ⟨(key, v), hm, rfl⟩)) hnd.1
      · rw [if_neg hk]
        exact ih hnd.2 hm

/-- Rebuilding a map over a key list drawn from the map's keys keeps exactly
that key list. -/
theorem filterMap_lookup_keys (map : ObjMap α) (f : α → β) :
    ∀ keys : List String, (∀ k ∈ keys, k ∈ objKeys map) →
      (keys.filterMap
        (fun key => (objLookup key map).map (fun value => (key, f value)))).map Prod.fst
      = keys := by
  intro keys
  induction keys with
  | nil => intro; rfl
  | cons k rest ih =>
    intro h
    obtain ⟨v, hv⟩ := Option.isSome_iff_exists.mp (objLookup_isSome (h k (by simp)))
    rw [List.filterMap_cons, hv]
    simpa using ih (fun q hq => h q (by simp [hq]))

/-- The keys of `sortObjMap` are exactly the sorted keys of the input map. -/
theorem objKeys_sortObjMap (cmp : Comparator) (map : ObjMap α) (f : α → β) :
    objKeys (sortObjMap cmp map f) = sortBy cmp id (objKeys map) := by
  apply filterMap_lookup_keys
  intro k hk
  exact (sortBy_perm cmp id (objKeys map)).mem_iff.mp hk

/-- Rebuilding from the key sequence of a list of bindings of a
distinct-keyed map reproduces those bindings, with `f` applied to values. -/
theorem filterMap_lookup_of_bindings (map : ObjMap α) (f : α → β)
    (hnd : (objKeys map).Nodup) :
    ∀ pairs : List (String × α), (∀ p ∈ pairs, p ∈ map) →
      (objKeys pairs).filterMap
        (fun key => (objLookup key map).map (fun value => (key, f value)))
      = pairs.map (fun p => (p.1, f p.2)) := by
  intro pairs
  induction pairs with
  | nil => intro; rfl
  | cons p rest ih =>
    intro h
    have hp : (p.1, p.2) ∈ map := h p (by simp)
    have hv : objLookup p.1 map = some p.2 := objLookup_nodup hnd hp
    show List.filterMap _ (p.1 :: objKeys rest) = _
    rw [List.filterMap_cons, hv]
    simpa using ih (fun q hq => h q (by simp [hq]))

/-- Normal form of `sortObjMap` for a distinct-keyed map: sort the bindings
by key and apply `sortValueFn` to every value. -/
theorem sortObjMap_eq_map (cmp : Comparator) (map : ObjMap α) (f : α → β)
    (hnd : (objKeys map).Nodup) :
    sortObjMap cmp map f = (sortBy cmp (fun p => p.1) map).map (fun p => (p.1, f p.2)) := by
  unfold sortObjMap
  have hkeys : sortBy cmp id (objKeys map) = objKeys (sortBy cmp (fun p => p.1) map) := by
    rw [objKeys, ← sortBy_map_key]
    rfl
  rw [hkeys]
  exact filterMap_lookup_of_bindings map f hnd _
    (fun p hp => (sortBy_perm _ _ _).mem_iff.mp hp)

/-- `sortObjMap` permutes the key list. -/
theorem objKeys_sortObjMap_perm (cmp : Comparator) (map : ObjMap α) (f : α → β) :
    (objKeys (sortObjMap cmp map f)).Perm (objKeys map) := by
  rw [objKeys_sortObjMap]
  exact sortBy_perm cmp id (objKeys map)

/-- Under a total transitive comparator the keys of `sortObjMap` are pairwise
non-decreasing. -/
theorem sortObjMap_keys_pairwise (cmp : Comparator) (map : ObjMap α) (f : α → β)
    (htot : CmpTotal cmp) (htr : CmpTrans cmp) :
    (objKeys (sortObjMap cmp map f)).Pairwise (fun a b => cmp a b ≤ 0) := by
  rw [objKeys_sortObjMap]
  simpa using sortBy_pairwise cmp id htot htr (objKeys map)

/-- Every binding of a distinct-keyed map appears (with `f` applied) in its
`sortObjMap`. -/
theorem mem_sortObjMap_of_mem (cmp : Comparator) {map : ObjMap α} (f : α → β)
    {k : String} {v : α} (hnd : (objKeys map).Nodup) (hmem : (k, v) ∈ map) :
    (k, f v) ∈ sortObjMap cmp map f := by
  rw [sortObjMap_eq_map cmp map f hnd]
  exact List.mem_map.mpr ⟨(k, v), (sortBy_perm _ _ _).mem_iff.mpr hmem, rfl⟩

/-- Characterisation of the bindings of `sortObjMap`: every output binding is
an input value under its key, with `sortValueFn` applied. -/
theorem mem_sortObjMap (cmp : Comparator) (map : ObjMap α) (f : α → β)
    {kv : String × β} (h : kv ∈ sortObjMap cmp map f) :
    ∃ v, (kv.1, v) ∈ map ∧ kv.2 = f v := by
  unfold sortObjMap at h
  obtain ⟨key, _, heq⟩ := List.mem_filterMap.mp h
  cases hv : objLookup key map with
  | none => rw [hv] at heq; simp at heq
  | some v =>
    rw [hv] at heq
    have he : (key, f v) = kv := by simpa using heq
    rw [← he]
    exact ⟨v, objLookup_mem hv, rfl⟩

/-! ### Preservation lemmas for the per-kind sorter -/

/-- The sorter never changes a type's name. -/
theorem sortNamedType_name (cmp : Comparator) (type : NamedType) :
    (sortNamedType cmp type).name = type.name := by
  cases type <;> (rw [sortNamedType]; split <;> rfl)

/-- The sorter never changes a type's kind tag: scalar test. -/
theorem sortNamedType_isScalar (cmp : Comparator) (type : NamedType) :
    isScalarType (sortNamedType cmp type) = isScalarType type := by
  cases type <;> (rw [sortNamedType]; split <;> rfl)

/-- The sorter never changes the introspection-reserved mark. -/
theorem sortNamedType_isIntrospection (cmp : Comparator) (type : NamedType) :
    isIntrospectionType (sortNamedType cmp type) = isIntrospectionType type := by
  cases type <;> (rw [sortNamedType]; split <;> rfl)

/-- Scalars and introspection-reserved types pass through unchanged
(source lines 135-137). -/
theorem sortNamedType_passthrough (cmp : Comparator) (type : NamedType)
    (h : (isScalarType type || isIntrospectionType type) = true) :
    sortNamedType cmp type = type := by
  cases type <;> rw [sortNamedType, if_pos h]

/-- Unfolding for a non-introspection object type. -/
theorem sortNamedType_object (cmp : Comparator) (name : String)
    (interfaces : List String) (fields : ObjMap FieldConfig) (meta : String) :
    sortNamedType cmp (.object name false interfaces fields meta)
      = .object name false (sortTypes cmp interfaces) (sortFields cmp fields) meta := by
  rw [sortNamedType, if_neg (by simp [isScalarType, isIntrospectionType])]

/-- Unfolding for a non-introspection interface type. -/
theorem sortNamedType_interface (cmp : Comparator) (name : String)
    (interfaces : List String) (fields : ObjMap FieldConfig) (meta : String) :
    sortNamedType cmp (.interface name false interfaces fields meta)
      = .interface name false (sortTypes cmp interfaces) (sortFields cmp fields) meta := by
  rw [sortNamedType, if_neg (by simp [isScalarType, isIntrospectionType])]

/-- Unfolding for a non-introspection union type. -/
theorem sortNamedType_union (cmp : Comparator) (name : String)
    (types : List String) (meta : String) :
    sortNamedType cmp (.union name false types meta)
      = .union name false (sortTypes cmp types) meta := by
  rw [sortNamedType, if_neg (by simp [isScalarType, isIntrospectionType])]

/-- Unfolding for a non-introspection enum type. -/
theorem sortNamedType_enum (cmp : Comparator) (name : String)
    (values : ObjMap EnumValueConfig) (meta : String) :
    sortNamedType cmp (.enum name false values meta)
      = .enum name false (sortObjMap cmp values (fun value => value)) meta := by
  rw [sortNamedType, if_neg (by simp [isScalarType, isIntrospectionType])]

/-- Unfolding for a non-introspection input-object type. -/
theorem sortNamedType_inputObject (cmp : Comparator) (name : String)
    (fields : ObjMap InputFieldConfig) (meta : String) :
    sortNamedType cmp (.inputObject name false fields meta)
      = .inputObject name false (sortInputFields cmp fields) meta := by
  rw [sortNamedType, if_neg (by simp [isScalarType, isIntrospectionType])]

/-! ### The name index and reference resolution -/

/-- Every binding of the name index stores a type whose name is its key. -/
theorem buildTypeMap_entry_name (cmp : Comparator) (schema : SchemaConfig) :
    ∀ p ∈ buildTypeMap cmp schema, p.2.name = p.1 := by
  intro p hp
  obtain ⟨t, _, rfl⟩ := List.mem_map.mp hp
  exact sortNamedType_name cmp t

/-- The key list of the name index is the sorted name list of the schema's
types. -/
theorem objKeys_buildTypeMap (cmp : Comparator) (schema : SchemaConfig) :
    objKeys (buildTypeMap cmp schema)
      = (sortByName cmp NamedType.name schema.types).map NamedType.name := by
  simp [buildTypeMap, keyValMap, objKeys]

/-- The index keys permute the schema's type names. -/
theorem objKeys_buildTypeMap_perm (cmp : Comparator) (schema : SchemaConfig) :
    (objKeys (buildTypeMap cmp schema)).Perm (schema.types.map NamedType.name) := by
  rw [objKeys_buildTypeMap]
  exact (sortBy_perm cmp NamedType.name schema.types).map NamedType.name

/-- Under distinct type names, resolving a schema type's name in the index
yields exactly that type's sorted replacement, constructed once by
`sortNamedType`. -/
theorem replaceNamedType_buildTypeMap (cmp : Comparator) (schema : SchemaConfig)
    (hnd : (schema.types.map NamedType.name).Nodup)
    {t : NamedType} (ht : t ∈ schema.types) :
    replaceNamedType (buildTypeMap cmp schema) t.name = some (sortNamedType cmp t) := by
  apply objLookup_nodup
  · exact ((objKeys_buildTypeMap_perm cmp schema).nodup_iff).mpr hnd
  · exact List.mem_map.mpr ⟨t, (sortBy_perm _ _ _).mem_iff.mpr ht, rfl⟩

/-- A successful `replaceNamedType` lookup returns a type named by the looked
up name, provided the index binds every name to a type of that name. -/
theorem replaceNamedType_some_name {typeMap : ObjMap NamedType}
    (hmap : ∀ p ∈ typeMap, p.2.name = p.1) {name : String} {t : NamedType}
    (h : replaceNamedType typeMap name = some t) : t.name = name :=
  hmap (name, t) (objLookup_mem h)

/-- Resolution through the index is the identity on any (possibly wrapped)
reference whose base name is present: the wrapper nesting is preserved and
the named base resolves to the type of the same name. -/
theorem replaceType_eq_self {typeMap : ObjMap NamedType}
    (hmap : ∀ p ∈ typeMap, p.2.name = p.1) :
    ∀ ref : TypeRef, ref.baseName ∈ objKeys typeMap →
      replaceType typeMap ref = some ref := by
  intro ref
  induction ref with
  | named n =>
    intro h
    simp only [TypeRef.baseName] at h
    obtain ⟨t, ht⟩ := Option.isSome_iff_exists.mp (objLookup_isSome h)
    have hn : t.name = n := replaceNamedType_some_name hmap ht
    rw [replaceType, replaceNamedType, ht]
    simp [hn]
  | list inner ih =>
    intro h
    rw [replaceType, ih h]
    rfl
  | nonNull inner ih =>
    intro h
    rw [replaceType, ih h]
    rfl

/-- A dangling reference resolves silently to `none` (JS `undefined`);
no error is raised anywhere on this path. -/
theorem replaceType_dangling (typeMap : ObjMap NamedType) :
    ∀ ref : TypeRef, ref.baseName ∉ objKeys typeMap →
      replaceType typeMap ref = none := by
  intro ref
  induction ref with
  | named n =>
    intro h
    simp only [TypeRef.baseName] at h
    rw [replaceType, replaceNamedType, objLookup_eq_none _ _ h]
    rfl
  | list inner ih =>
    intro h
    rw [replaceType, ih h]
    rfl
  | nonNull inner ih =>
    intro h
    rw [replaceType, ih h]
    rfl

/-! ### Well-formedness and sortedness predicates -/

/-- Well-formedness of a field configuration: its argument keys are distinct
(true of every JS ObjMap). -/
abbrev FieldConfigWF (field : FieldConfig) : Prop := (objKeys field.args).Nodup

/-- Well-formedness of a named type: every ObjMap it carries has distinct
keys. -/
abbrev NamedTypeWF (type : NamedType) : Prop :=
  (objKeys type.fieldsOf).Nodup ∧ (∀ kv ∈ type.fieldsOf, FieldConfigWF kv.2)
    ∧ (objKeys type.enumValuesOf).Nodup ∧ (objKeys type.inputFieldsOf).Nodup

/-- Well-formedness of a directive: its argument keys are distinct. -/
abbrev DirectiveWF (directive : GraphQLDirective) : Prop :=
  (objKeys directive.args).Nodup

/-- Well-formedness of a schema configuration: type names are unique and
every contained ObjMap has distinct keys (the spec's input invariants). -/
abbrev SchemaWF (schema : SchemaConfig) : Prop :=
  (schema.types.map NamedType.name).Nodup
    ∧ (∀ t ∈ schema.types, NamedTypeWF t)
    ∧ (∀ d ∈ schema.directives, DirectiveWF d)

/-- A name sequence is sorted for `cmp` when it is pairwise at-or-before. -/
abbrev keysSorted (cmp : Comparator) (keys : List String) : Prop :=
  keys.Pairwise (fun a b => cmp a b ≤ 0)

/-- All collections of a named type are sorted for `cmp`: its interface
list, its field map and each field's argument map, its union member list,
its enum value map and its input field map. -/
abbrev NamedTypeSorted (cmp : Comparator) (type : NamedType) : Prop :=
  keysSorted cmp type.interfacesOf
    ∧ keysSorted cmp (objKeys type.fieldsOf)
    ∧ (∀ kv ∈ type.fieldsOf, keysSorted cmp (objKeys kv.2.args))
    ∧ keysSorted cmp type.unionTypesOf
    ∧ keysSorted cmp (objKeys type.enumValuesOf)
    ∧ keysSorted cmp (objKeys type.inputFieldsOf)

/-- Distinct keys are preserved by `sortObjMap`. -/
theorem sortObjMap_keys_nodup (cmp : Comparator) (map : ObjMap α) (f : α → β)
    (hnd : (objKeys map).Nodup) : (objKeys (sortObjMap cmp map f)).Nodup :=
  ((objKeys_sortObjMap_perm cmp map f).nodup_iff).mpr hnd

/-- Every rebuilt (non-scalar, non-introspection) type has all its
collections sorted. -/
theorem sortNamedType_sorted (cmp : Comparator) (htot : CmpTotal cmp) (htr : CmpTrans cmp)
    (type : NamedType) (h : (isScalarType type || isIntrospectionType type) = false) :
    NamedTypeSorted cmp (sortNamedType cmp type) := by
  cases type with
  | scalar n intro m => simp [isScalarType] at h
  | object n intro ifs fs m =>
    have hintro : intro = false := by simpa [isScalarType, isIntrospectionType] using h
    subst hintro
    rw [sortNamedType_object]
    refine ⟨sortBy_pairwise cmp id htot htr ifs,
      sortObjMap_keys_pairwise cmp fs _ htot htr, ?_,
      List.Pairwise.nil, List.Pairwise.nil, List.Pairwise.nil⟩
    intro kv hkv
    obtain ⟨v, _, hv⟩ := mem_sortObjMap cmp fs _ hkv
    rw [hv]
    exact sortObjMap_keys_pairwise cmp v.args _ htot htr
  | interface n intro ifs fs m =>
    have hintro : intro = false := by simpa [isScalarType, isIntrospectionType] using h
    subst hintro
    rw [sortNamedType_interface]
    refine ⟨sortBy_pairwise cmp id htot htr ifs,
      sortObjMap_keys_pairwise cmp fs _ htot htr, ?_,
      List.Pairwise.nil, List.Pairwise.nil, List.Pairwise.nil⟩
    intro kv hkv
    obtain ⟨v, _, hv⟩ := mem_sortObjMap cmp fs _ hkv
    rw [hv]
    exact sortObjMap_keys_pairwise cmp v.args _ htot htr
  | union n intro ts m =>
    have hintro : intro = false := by simpa [isScalarType, isIntrospectionType] using h
    subst hintro
    rw [sortNamedType_union]
    exact ⟨List.Pairwise.nil, List.Pairwise.nil, fun kv hkv => by simp [NamedType.fieldsOf] at hkv,
      sortBy_pairwise cmp id htot htr ts, List.Pairwise.nil, List.Pairwise.nil⟩
  | enum n intro vs m =>
    have hintro : intro = false := by simpa [isScalarType, isIntrospectionType] using h
    subst hintro
    rw [sortNamedType_enum]
    exact ⟨List.Pairwise.nil, List.Pairwise.nil, fun kv hkv => by simp [NamedType.fieldsOf] at hkv,
      List.Pairwise.nil, sortObjMap_keys_pairwise cmp vs _ htot htr, List.Pairwise.nil⟩
  | inputObject n intro fs m =>
    have hintro : intro = false := by simpa [isScalarType, isIntrospectionType] using h
    subst hintro
    rw [sortNamedType_inputObject]
    exact ⟨List.Pairwise.nil, List.Pairwise.nil, fun kv hkv => by simp [NamedType.fieldsOf] at hkv,
      List.Pairwise.nil, List.Pairwise.nil, sortObjMap_keys_pairwise cmp fs _ htot htr⟩

/-- Well-formedness is preserved by the per-kind sorter. -/
theorem sortNamedType_wf (cmp : Comparator) (type : NamedType) (h : NamedTypeWF type) :
    NamedTypeWF (sortNamedType cmp type) := by
  by_cases hg : (isScalarType type || isIntrospectionType type) = true
  · rw [sortNamedType_passthrough cmp type hg]
    exact h
  · have hg' : (isScalarType type || isIntrospectionType type) = false :=
      Bool.eq_false_iff.mpr hg
    obtain ⟨h1, h2, h3, h4⟩ := h
    cases type with
    | scalar n intro m => simp [isScalarType] at hg'
    | object n intro ifs fs m =>
      have hintro : intro = false := by
        simpa [isScalarType, isIntrospectionType] using hg'
      subst hintro
      rw [sortNamedType_object]
      refine ⟨sortObjMap_keys_nodup cmp fs _ h1, ?_, List.nodup_nil, List.nodup_nil⟩
      intro kv hkv
      obtain ⟨v, hv, he⟩ := mem_sortObjMap cmp fs _ hkv
      rw [he]
      exact sortObjMap_keys_nodup cmp v.args _ (h2 (kv.1, v) hv)
    | interface n intro ifs fs m =>
      have hintro : intro = false := by
        simpa [isScalarType, isIntrospectionType] using hg'
      subst hintro
      rw [sortNamedType_interface]
      refine ⟨sortObjMap_keys_nodup cmp fs _ h1, ?_, List.nodup_nil, List.nodup_nil⟩
      intro kv hkv
      obtain ⟨v, hv, he⟩ := mem_sortObjMap cmp fs _ hkv
      rw [he]
      exact sortObjMap_keys_nodup cmp v.args _ (h2 (kv.1, v) hv)
    | union n intro ts m =>
      have hintro : intro = false := by
        simpa [isScalarType, isIntrospectionType] using hg'
      subst hintro
      rw [sortNamedType_union]
      exact ⟨List.nodup_nil, fun kv hkv => by simp [NamedType.fieldsOf] at hkv, List.nodup_nil, List.nodup_nil⟩
    | enum n intro vs m =>
      have hintro : intro = false := by
        simpa [isScalarType, isIntrospectionType] using hg'
      subst hintro
      rw [sortNamedType_enum]
      exact ⟨List.nodup_nil, fun kv hkv => by simp [NamedType.fieldsOf] at hkv,
        sortObjMap_keys_nodup cmp vs _ h3, List.nodup_nil⟩
    | inputObject n intro fs m =>
      have hintro : intro = false := by
        simpa [isScalarType, isIntrospectionType] using hg'
      subst hintro
      rw [sortNamedType_inputObject]
      exact ⟨List.nodup_nil, fun kv hkv => by simp [NamedType.fieldsOf] at hkv, List.nodup_nil,
        sortObjMap_keys_nodup cmp fs _ h4⟩

/-! ### Idempotence lemmas -/

/-- Re-sorting an already-sorted ObjMap changes nothing, provided the value
function is idempotent on the map's values. -/
theorem sortObjMap_resort (cmp : Comparator) (htot : CmpTotal cmp) (htr : CmpTrans cmp)
    (map : ObjMap α) (f : α → β) (g : β → β) (hnd : (objKeys map).Nodup)
    (hgf : ∀ k v, (k, v) ∈ map → g (f v) = f v) :
    sortObjMap cmp (sortObjMap cmp map f) g = sortObjMap cmp map f := by
  have hnd' : (objKeys (sortObjMap cmp map f)).Nodup := sortObjMap_keys_nodup cmp map f hnd
  rw [sortObjMap_eq_map cmp _ g hnd']
  have hsorted : (sortObjMap cmp map f).Pairwise (fun p q => cmp p.1 q.1 ≤ 0) := by
    have hk := sortObjMap_keys_pairwise cmp map f htot htr
    rw [objKeys] at hk
    exact (List.pairwise_map).mp hk
  rw [sortBy_eq_self _ _ _ hsorted]
  have hfix : ∀ p ∈ sortObjMap cmp map f, (p.1, g p.2) = p := by
    intro p hp
    obtain ⟨v, hv, he⟩ := mem_sortObjMap cmp map f hp
    have hgp : g p.2 = p.2 := by
      rw [he]
      exact hgf p.1 v hv
    rw [hgp]
  rw [List.map_congr_left hfix]
  simp

/-- Re-sorting a sorted reference list is the identity. -/
theorem sortTypes_idem (cmp : Comparator) (htot : CmpTotal cmp) (htr : CmpTrans cmp)
    (arr : List String) : sortTypes cmp (sortTypes cmp arr) = sortTypes cmp arr :=
  sortBy_eq_self cmp id _ (sortBy_pairwise cmp id htot htr arr)

/-- Re-sorting sorted arguments is the identity. -/
theorem sortArgs_idem (cmp : Comparator) (htot : CmpTotal cmp) (htr : CmpTrans cmp)
    (args : ObjMap ArgConfig) (hnd : (objKeys args).Nodup) :
    sortArgs cmp (sortArgs cmp args) = sortArgs cmp args :=
  sortObjMap_resort cmp htot htr args _ _ hnd (fun _ _ _ => rfl)

/-- Re-sorting sorted fields is the identity. -/
theorem sortFields_idem (cmp : Comparator) (htot : CmpTotal cmp) (htr : CmpTrans cmp)
    (fs : ObjMap FieldConfig) (hnd : (objKeys fs).Nodup)
    (hf : ∀ kv ∈ fs, FieldConfigWF kv.2) :
    sortFields cmp (sortFields cmp fs) = sortFields cmp fs := by
  apply sortObjMap_resort cmp htot htr fs _ _ hnd
  intro k v hkv
  simp [sortArgs_idem cmp htot htr v.args (hf (k, v) hkv)]

/-- Re-sorting a sorted directive is the identity. -/
theorem sortDirective_idem (cmp : Comparator) (htot : CmpTotal cmp) (htr : CmpTrans cmp)
    (directive : GraphQLDirective) (hnd : DirectiveWF directive) :
    sortDirective cmp (sortDirective cmp directive) = sortDirective cmp directive := by
  unfold sortDirective
  simp only
  rw [sortBy_eq_self cmp id _ (sortBy_pairwise cmp id htot htr directive.locations),
    sortArgs_idem cmp htot htr directive.args hnd]

/-- Re-sorting a sorted named type is the identity. -/
theorem sortNamedType_idem (cmp : Comparator) (htot : CmpTotal cmp) (htr : CmpTrans cmp)
    (type : NamedType) (h : NamedTypeWF type) :
    sortNamedType cmp (sortNamedType cmp type) = sortNamedType cmp type := by
  by_cases hg : (isScalarType type || isIntrospectionType type) = true
  · rw [sortNamedType_passthrough cmp type hg, sortNamedType_passthrough cmp type hg]
  · have hg' : (isScalarType type || isIntrospectionType type) = false :=
      Bool.eq_false_iff.mpr hg
    obtain ⟨h1, h2, h3, h4⟩ := h
    cases type with
    | scalar n intro m => simp [isScalarType] at hg'
    | object n intro ifs fs m =>
      have hintro : intro = false := by
        simpa [isScalarType, isIntrospectionType] using hg'
      subst hintro
      rw [sortNamedType_object, sortNamedType_object,
        sortTypes_idem cmp htot htr ifs, sortFields_idem cmp htot htr fs h1 h2]
    | interface n intro ifs fs m =>
      have hintro : intro = false := by
        simpa [isScalarType, isIntrospectionType] using hg'
      subst hintro
      rw [sortNamedType_interface, sortNamedType_interface,
        sortTypes_idem cmp htot htr ifs, sortFields_idem cmp htot htr fs h1 h2]
    | union n intro ts m =>
      have hintro : intro = false := by
        simpa [isScalarType, isIntrospectionType] using hg'
      subst hintro
      rw [sortNamedType_union, sortNamedType_union, sortTypes_idem cmp htot htr ts]
    | enum n intro vs m =>
      have hintro : intro = false := by
        simpa [isScalarType, isIntrospectionType] using hg'
      subst hintro
      rw [sortNamedType_enum, sortNamedType_enum,
        sortObjMap_resort cmp htot htr vs _ _ h3 (fun _ _ _ => rfl)]
    | inputObject n intro fs m =>
      have hintro : intro = false := by
        simpa [isScalarType, isIntrospectionType] using hg'
      subst hintro
      rw [sortNamedType_inputObject, sortNamedType_inputObject]
      unfold sortInputFields
      rw [sortObjMap_resort cmp htot htr fs _ _ h4 (fun _ _ _ => rfl)]

/-! ### Root replacement and the rebuilt schema -/

/-- An absent root stays absent. -/
theorem replaceMaybeType_none (typeMap : ObjMap NamedType) :
    replaceMaybeType typeMap none = none := rfl

/-- A present root is resolved by a plain index lookup of its name. -/
theorem replaceMaybeType_some (typeMap : ObjMap NamedType) (t : NamedType) :
    replaceMaybeType typeMap (some t) = replaceNamedType typeMap t.name := rfl

/-- Root replacement is idempotent over an index binding names to types of
that name. -/
theorem replaceMaybeType_idem (typeMap : ObjMap NamedType)
    (hmap : ∀ p ∈ typeMap, p.2.name = p.1) (q : Option NamedType) :
    replaceMaybeType typeMap (replaceMaybeType typeMap q) = replaceMaybeType typeMap q := by
  cases q with
  | none => rfl
  | some t =>
    rw [replaceMaybeType_some]
    cases hl : replaceNamedType typeMap t.name with
    | none => rfl
    | some u =>
      have hu : u.name = t.name := replaceNamedType_some_name hmap hl
      rw [replaceMaybeType_some, hu, hl]

/-- The output type list is the value list of the name index. -/
theorem lexicographicSortSchema_types (cmp : Comparator) (schema : SchemaConfig) :
    (lexicographicSortSchema cmp schema).types = (buildTypeMap cmp schema).map Prod.snd := rfl

/-- The output directive list. -/
theorem lexicographicSortSchema_directives (cmp : Comparator) (schema : SchemaConfig) :
    (lexicographicSortSchema cmp schema).directives
      = (sortByName cmp GraphQLDirective.name schema.directives).map (sortDirective cmp) := rfl

/-- The output query root. -/
theorem lexicographicSortSchema_query (cmp : Comparator) (schema : SchemaConfig) :
    (lexicographicSortSchema cmp schema).query
      = replaceMaybeType (buildTypeMap cmp schema) schema.query := rfl

/-- The output mutation root. -/
theorem lexicographicSortSchema_mutation (cmp : Comparator) (schema : SchemaConfig) :
    (lexicographicSortSchema cmp schema).mutation
      = replaceMaybeType (buildTypeMap cmp schema) schema.mutation := rfl

/-- The output subscription root. -/
theorem lexicographicSortSchema_subscription (cmp : Comparator) (schema : SchemaConfig) :
    (lexicographicSortSchema cmp schema).subscription
      = replaceMaybeType (buildTypeMap cmp schema) schema.subscription := rfl

/-- The values of the name index are the sorted replacements in sorted name
order. -/
theorem buildTypeMap_values (cmp : Comparator) (schema : SchemaConfig) :
    (buildTypeMap cmp schema).map Prod.snd
      = (sortByName cmp NamedType.name schema.types).map (sortNamedType cmp) := by
  rw [buildTypeMap, keyValMap, List.map_map]
  rfl

/-! ### The concrete comparators are consistent -/

/-- The at-or-before relation of `defaultCompare` is dictionary order. -/
theorem defaultCompare_le_iff (a b : String) : defaultCompare a b ≤ 0 ↔ a.data ≤ b.data := by
  unfold defaultCompare
  by_cases h1 : a.data < b.data
  · rw [if_pos h1]
    constructor
    · intro _
      exact le_of_lt h1
    · intro _
      decide
  · rw [if_neg h1]
    by_cases h2 : b.data < a.data
    · rw [if_pos h2]
      constructor
      · intro hc
        exact absurd hc (by decide)
      · intro hab
        exact absurd h2 (not_lt.mpr hab)
    · rw [if_neg h2]
      constructor
      · intro _
        exact le_of_not_lt h2
      · intro _
        decide

/-- `defaultCompare` is total. -/
theorem defaultCompare_total : CmpTotal defaultCompare := by
  intro a b
  rw [defaultCompare_le_iff, defaultCompare_le_iff]
  exact le_total a.data b.data

/-- `defaultCompare` is transitive. -/
theorem defaultCompare_trans : CmpTrans defaultCompare := by
  intro a b c hab hbc
  rw [defaultCompare_le_iff] at hab hbc ⊢
  exact le_trans hab hbc

/-- The at-or-before relation of `lenCompare` is length order. -/
theorem lenCompare_le_iff (a b : String) : lenCompare a b ≤ 0 ↔ a.length ≤ b.length := by
  unfold lenCompare
  by_cases h1 : a.length < b.length
  · rw [if_pos h1]
    constructor
    · intro _
      exact le_of_lt h1
    · intro _
      decide
  · rw [if_neg h1]
    by_cases h2 : b.length < a.length
    · rw [if_pos h2]
      constructor
      · intro hc
        exact absurd hc (by decide)
      · intro hab
        exact absurd h2 (not_lt.mpr hab)
    · rw [if_neg h2]
      constructor
      · intro _
        exact le_of_not_lt h2
      · intro _
        decide

/-- `lenCompare` is transitive. -/
theorem lenCompare_trans : CmpTrans lenCompare := by
  intro a b c hab hbc
  rw [lenCompare_le_iff] at hab hbc ⊢
  exact le_trans hab hbc

/-- `lenCompare` ties are symmetric. -/
theorem lenCompare_tieSymm : CmpTieSymm lenCompare := by
  intro a b h
  unfold lenCompare at h ⊢
  by_cases h1 : a.length < b.length
  · rw [if_pos h1] at h
    exact absurd h (by decide)
  · rw [if_neg h1] at h
    by_cases h2 : b.length < a.length
    · rw [if_pos h2] at h
      exact absurd h (by decide)
    · rw [if_neg h2, if_neg h1]

/-! ### Stability of the sort under comparator ties -/

/-- Inserting a `p`-element that sorts at-or-before every `p`-element of `l`
prepends it to the `p`-filtered list. -/
theorem filter_orderedInsert_pos {r : α → α → Prop} [DecidableRel r] (p : α → Bool)
    (x : α) (l : List α) (hx : p x = true) (h : ∀ y ∈ l, p y = true → r x y) :
    (l.orderedInsert r x).filter p = x :: l.filter p := by
  induction l with
  | nil => simp [hx]
  | cons y l ih =>
    by_cases hr : r x y
    · rw [List.orderedInsert, if_pos hr, List.filter_cons, if_pos hx]
    · have hpy : p y = false := by
        cases hpy : p y with
        | false => rfl
        | true => exact absurd (h y (List.mem_cons_self y l) hpy) hr
      rw [List.orderedInsert, if_neg hr, List.filter_cons, List.filter_cons]
      simp only [hpy]
      simpa using ih (fun z hz hp => h z (List.mem_cons_of_mem y hz) hp)

/-- Inserting a non-`p`-element leaves the `p`-filtered list unchanged. -/
theorem filter_orderedInsert_neg {r : α → α → Prop} [DecidableRel r] (p : α → Bool)
    (x : α) (l : List α) (hx : p x = false) :
    (l.orderedInsert r x).filter p = l.filter p := by
  induction l with
  | nil => simp [hx]
  | cons y l ih =>
    by_cases hr : r x y
    · rw [List.orderedInsert, if_pos hr, List.filter_cons, List.filter_cons]
      simp only [hx]
      simp
    · rw [List.orderedInsert, if_neg hr, List.filter_cons, List.filter_cons]
      by_cases hpy : p y = true
      · simp only [hpy, if_pos]
        rw [ih]
      · simp only [Bool.not_eq_true] at hpy
        simp only [hpy]
        simpa using ih

/-- Stability of insertion sort: the subsequence of elements of any mutually
at-or-before class (in particular, any comparator tie class) is preserved. -/
theorem filter_insertionSort (r : α → α → Prop) [DecidableRel r] (p : α → Bool)
    (l : List α) (h : ∀ x ∈ l, ∀ y ∈ l, p x = true → p y = true → r x y) :
    (l.insertionSort r).filter p = l.filter p := by
  induction l with
  | nil => rfl
  | cons x l ih =>
    rw [List.insertionSort]
    by_cases hx : p x = true
    · rw [filter_orderedInsert_pos p x (l.insertionSort r) hx
        (fun y hy hpy => h x (List.mem_cons_self x l)
          y (List.mem_cons_of_mem x ((List.mem_insertionSort r).mp hy)) hx hpy),
        List.filter_cons, if_pos hx,
        ih (fun a ha b hb => h a (List.mem_cons_of_mem x ha) b (List.mem_cons_of_mem x hb))]
    · have hx' : p x = false := Bool.eq_false_iff.mpr hx
      rw [filter_orderedInsert_neg p x (l.insertionSort r) hx', List.filter_cons]
      simp only [hx']
      simpa using ih (fun a ha b hb => h a (List.mem_cons_of_mem x ha)
        b (List.mem_cons_of_mem x hb))

/-! ### Assembly lemmas for the rebuilt schema -/

/-- The output type list is the sorted replacements in sorted name order. -/
theorem lexSortSchema_types_eq (cmp : Comparator) (schema : SchemaConfig) :
    (lexicographicSortSchema cmp schema).types
      = (sortByName cmp NamedType.name schema.types).map (sortNamedType cmp) := by
  rw [lexicographicSortSchema_types, buildTypeMap_values]

/-- The output type names are the sorted input type names. -/
theorem lexSortSchema_types_names (cmp : Comparator) (schema : SchemaConfig) :
    (lexicographicSortSchema cmp schema).types.map NamedType.name
      = (sortByName cmp NamedType.name schema.types).map NamedType.name := by
  rw [lexSortSchema_types_eq, List.map_map]
  exact List.map_congr_left (fun t _ => sortNamedType_name cmp t)

/-- The sorter only permutes each collection of a type: key/name lists of
every collection are permutations, and each field reappears under its key
with a permuted argument map. -/
theorem sortNamedType_collections_perm (cmp : Comparator) (type : NamedType)
    (hnd : (objKeys type.fieldsOf).Nodup) :
    (objKeys (sortNamedType cmp type).fieldsOf).Perm (objKeys type.fieldsOf)
    ∧ (objKeys (sortNamedType cmp type).enumValuesOf).Perm (objKeys type.enumValuesOf)
    ∧ (objKeys (sortNamedType cmp type).inputFieldsOf).Perm (objKeys type.inputFieldsOf)
    ∧ ((sortNamedType cmp type).interfacesOf).Perm type.interfacesOf
    ∧ ((sortNamedType cmp type).unionTypesOf).Perm type.unionTypesOf
    ∧ (∀ kv ∈ type.fieldsOf, ∃ fc, (kv.1, fc) ∈ (sortNamedType cmp type).fieldsOf
        ∧ (objKeys fc.args).Perm (objKeys kv.2.args)) := by
  by_cases hg : (isScalarType type || isIntrospectionType type) = true
  · rw [sortNamedType_passthrough cmp type hg]
    exact ⟨List.Perm.refl _, List.Perm.refl _, List.Perm.refl _, List.Perm.refl _,
      List.Perm.refl _, fun kv hkv => ⟨kv.2, hkv, List.Perm.refl _⟩⟩
  · have hg' : (isScalarType type || isIntrospectionType type) = false :=
      Bool.eq_false_iff.mpr hg
    cases type with
    | scalar n intro m => simp [isScalarType] at hg'
    | object n intro ifs fs m =>
      have hintro : intro = false := by
        simpa [isScalarType, isIntrospectionType] using hg'
      subst hintro
      rw [sortNamedType_object]
      exact ⟨objKeys_sortObjMap_perm cmp fs _, List.Perm.refl _, List.Perm.refl _,
        sortBy_perm cmp id ifs, List.Perm.refl _,
        fun kv hkv => ⟨{ kv.2 with args := sortArgs cmp kv.2.args },
          mem_sortObjMap_of_mem cmp _ hnd hkv, objKeys_sortObjMap_perm cmp kv.2.args _⟩⟩
    | interface n intro ifs fs m =>
      have hintro : intro = false := by
        simpa [isScalarType, isIntrospectionType] using hg'
      subst hintro
      rw [sortNamedType_interface]
      exact ⟨objKeys_sortObjMap_perm cmp fs _, List.Perm.refl _, List.Perm.refl _,
        sortBy_perm cmp id ifs, List.Perm.refl _,
        fun kv hkv => ⟨{ kv.2 with args := sortArgs cmp kv.2.args },
          mem_sortObjMap_of_mem cmp _ hnd hkv, objKeys_sortObjMap_perm cmp kv.2.args _⟩⟩
    | union n intro ts m =>
      have hintro : intro = false := by
        simpa [isScalarType, isIntrospectionType] using hg'
      subst hintro
      rw [sortNamedType_union]
      exact ⟨List.Perm.refl _, List.Perm.refl _, List.Perm.refl _, List.Perm.refl _,
        sortBy_perm cmp id ts, fun kv hkv => by simp [NamedType.fieldsOf] at hkv⟩
    | enum n intro vs m =>
      have hintro : intro = false := by
        simpa [isScalarType, isIntrospectionType] using hg'
      subst hintro
      rw [sortNamedType_enum]
      exact ⟨List.Perm.refl _, objKeys_sortObjMap_perm cmp vs _, List.Perm.refl _,
        List.Perm.refl _, List.Perm.refl _, fun kv hkv => by simp [NamedType.fieldsOf] at hkv⟩
    | inputObject n intro fs m =>
      have hintro : intro = false := by
        simpa [isScalarType, isIntrospectionType] using hg'
      subst hintro
      rw [sortNamedType_inputObject]
      exact ⟨List.Perm.refl _, List.Perm.refl _, objKeys_sortObjMap_perm cmp fs _,
        List.Perm.refl _, List.Perm.refl _, fun kv hkv => by simp [NamedType.fieldsOf] at hkv⟩

/-- Stability of `sortBy` on a comparator tie class, as a filter equation. -/
theorem sortBy_filter_tie (cmp : Comparator) (hsym : CmpTieSymm cmp) (htr : CmpTrans cmp)
    (mapToKey : α → String) (l : List α) (k : String) :
    (sortBy cmp mapToKey l).filter (fun x => cmp (mapToKey x) k == 0)
      = l.filter (fun x => cmp (mapToKey x) k == 0) := by
  apply filter_insertionSort
  intro x _ y _ hx hy
  have hx' : cmp (mapToKey x) k = 0 := by simpa using hx
  have hy' : cmp (mapToKey y) k = 0 := by simpa using hy
  exact htr _ _ _ (le_of_eq hx') (le_of_eq (hsym _ _ hy'))

/-! ### The claims -/

/-- C1 counterexample: a schema whose mutation root names a type absent from
its type set; `lexicographicSortSchema` completes normally and silently
yields an absent (`none` / JS `undefined`) mutation root instead of
reporting any fatal error. -/
theorem sort_missing_type_counterexample :
    danglingSchemaEx.mutation = some (NamedType.object "Mut" false [] [] "")
    ∧ "Mut" ∉ danglingSchemaEx.types.map NamedType.name
    ∧ (lexicographicSortSchema defaultCompare danglingSchemaEx).mutation = none :=
  ⟨rfl, by decide, by decide⟩

/-- C1 (amended): a reference naming a type absent from the schema's type
set is not detected by `lexicographicSortSchema`: the index lookup yields an
absent value (JS `undefined`, modelled `none`) which propagates silently
into the output — a dangling root becomes absent, and `replaceType` resolves
any dangling reference to `none`; no error is reported on this path. -/
theorem sort_missing_type_silent (cmp : Comparator) (schema : SchemaConfig)
    (t : NamedType) (hmut : schema.mutation = some t)
    (habs : t.name ∉ schema.types.map NamedType.name) :
    (lexicographicSortSchema cmp schema).mutation = none
    ∧ (∀ ref : TypeRef, ref.baseName ∉ schema.types.map NamedType.name →
        replaceType (buildTypeMap cmp schema) ref = none) := by
  have hkeys : ∀ x : String, x ∉ schema.types.map NamedType.name →
      x ∉ objKeys (buildTypeMap cmp schema) := by
    intro x hx hmem
    exact hx ((objKeys_buildTypeMap_perm cmp schema).mem_iff.mp hmem)
  constructor
  · rw [lexicographicSortSchema_mutation, hmut, replaceMaybeType_some, replaceNamedType,
      objLookup_eq_none _ _ (hkeys _ habs)]
  · intro ref h
    exact replaceType_dangling _ ref (hkeys _ h)

/-- C1 witness: the amended statement at the concrete dangling schema. -/
theorem sort_missing_type_silent_witness :
    (lexicographicSortSchema defaultCompare danglingSchemaEx).mutation = none
    ∧ replaceType (buildTypeMap defaultCompare danglingSchemaEx) (.named "Mut") = none := by
  have h := sort_missing_type_silent defaultCompare danglingSchemaEx
    (NamedType.object "Mut" false [] [] "") rfl (by decide)
  exact ⟨h.1, h.2 (.named "Mut") (by decide)⟩

/-- C2: on a schema with unique type names (cyclic graphs included), the
whole computation is total (it is a Lean function, hence terminating), the
name index contains exactly one binding per input type — each obtained by a
single application of `sortNamedType` — and every cross-reference resolves
by lookup to the sorted replacement instance: a present name resolves to
`sortNamedType` of the referenced input type, and a wrapped reference is
preserved in shape. -/
theorem sort_cycle_safe (cmp : Comparator) (schema : SchemaConfig)
    (hnd : (schema.types.map NamedType.name).Nodup) :
    buildTypeMap cmp schema
        = (sortByName cmp NamedType.name schema.types).map
            (fun t => (t.name, sortNamedType cmp t))
    ∧ (buildTypeMap cmp schema).length = schema.types.length
    ∧ (∀ t ∈ schema.types,
        replaceNamedType (buildTypeMap cmp schema) t.name = some (sortNamedType cmp t))
    ∧ (∀ ref : TypeRef, ref.baseName ∈ schema.types.map NamedType.name →
        replaceType (buildTypeMap cmp schema) ref = some ref) := by
  refine ⟨rfl, ?_, ?_, ?_⟩
  · rw [buildTypeMap, keyValMap, List.length_map]
    exact (sortBy_perm cmp NamedType.name schema.types).length_eq
  · intro t ht
    exact replaceNamedType_buildTypeMap cmp schema hnd ht
  · intro ref h
    apply replaceType_eq_self (buildTypeMap_entry_name cmp schema)
    exact (objKeys_buildTypeMap_perm cmp schema).mem_iff.mpr h

/-- C2 witness: the cyclic schema `A ↔ B`; each of `A` and `B` resolves to
its sorted replacement, and the index holds exactly one binding per type. -/
theorem sort_cycle_safe_witness :
    replaceNamedType (buildTypeMap defaultCompare cyclicSchema) "A"
        = some (sortNamedType defaultCompare typeA)
    ∧ replaceNamedType (buildTypeMap defaultCompare cyclicSchema) "B"
        = some (sortNamedType defaultCompare typeB)
    ∧ replaceType (buildTypeMap defaultCompare cyclicSchema) (.named "B") = some (.named "B")
    ∧ (buildTypeMap defaultCompare cyclicSchema).length = cyclicSchema.types.length := by
  have h := sort_cycle_safe defaultCompare cyclicSchema (by decide)
  exact ⟨h.2.2.1 typeA (by decide), h.2.2.1 typeB (by decide),
    h.2.2.2 (.named "B") (by decide), h.2.1⟩

/-- C3 counterexample: an introspection-reserved type (standing for the real
`__Schema`, whose field order is not alphabetical) passes through unchanged,
so the output contains an object field map whose name sequence is not
non-decreasing — the claim's universal quantification over every output
collection fails. -/
theorem sort_order_correct_counterexample :
    introspectionTypeEx ∈ (lexicographicSortSchema defaultCompare introSchemaEx).types
    ∧ ¬ keysSorted defaultCompare (objKeys introspectionTypeEx.fieldsOf) :=
  ⟨by decide, by decide⟩

/-- C3 (amended): under a total transitive comparator every collection the
sorter rebuilds is non-decreasing on names: the schema's type name list, the
directive name list, every output directive's locations and argument keys,
and every collection of every output type that is not a scalar or
introspection-reserved passthrough. -/
theorem sort_order_correct (cmp : Comparator) (htot : CmpTotal cmp) (htr : CmpTrans cmp)
    (schema : SchemaConfig) :
    keysSorted cmp ((lexicographicSortSchema cmp schema).types.map NamedType.name)
    ∧ keysSorted cmp
        ((lexicographicSortSchema cmp schema).directives.map GraphQLDirective.name)
    ∧ (∀ d ∈ (lexicographicSortSchema cmp schema).directives,
        keysSorted cmp d.locations ∧ keysSorted cmp (objKeys d.args))
    ∧ (∀ t ∈ (lexicographicSortSchema cmp schema).types,
        (isScalarType t || isIntrospectionType t) = false → NamedTypeSorted cmp t) := by
  refine ⟨?_, ?_, ?_, ?_⟩
  · rw [lexSortSchema_types_names, sortByName, sortBy_map_key]
    exact sortBy_pairwise cmp id htot htr (schema.types.map NamedType.name)
  · rw [lexicographicSortSchema_directives, List.map_map]
    have he : List.map (GraphQLDirective.name ∘ sortDirective cmp)
        (sortByName cmp GraphQLDirective.name schema.directives)
        = List.map GraphQLDirective.name
            (sortByName cmp GraphQLDirective.name schema.directives) :=
      List.map_congr_left (fun d _ => rfl)
    rw [he, sortByName, sortBy_map_key]
    exact sortBy_pairwise cmp id htot htr (schema.directives.map GraphQLDirective.name)
  · intro d hd
    rw [lexicographicSortSchema_directives] at hd
    obtain ⟨d0, _, rfl⟩ := List.mem_map.mp hd
    exact ⟨sortBy_pairwise cmp id htot htr d0.locations,
      sortObjMap_keys_pairwise cmp d0.args _ htot htr⟩
  · intro t ht hg
    rw [lexSortSchema_types_eq] at ht
    obtain ⟨t0, _, rfl⟩ := List.mem_map.mp ht
    apply sortNamedType_sorted cmp htot htr
    rw [← sortNamedType_isScalar cmp t0, ← sortNamedType_isIntrospection cmp t0]
    exact hg

/-- C3 witness: the amended statement at the concrete cyclic schema. -/
theorem sort_order_correct_witness :
    keysSorted defaultCompare
      ((lexicographicSortSchema defaultCompare cyclicSchema).types.map NamedType.name)
    ∧ (lexicographicSortSchema defaultCompare cyclicSchema).types.map NamedType.name
        = ["A", "B"] := by
  have h := sort_order_correct defaultCompare defaultCompare_total defaultCompare_trans
    cyclicSchema
  exact ⟨h.1, by decide⟩

/-- C4: for a well-formed schema the output contains exactly the same names
as the input, only reordered: type names and directive names are
permutations; each input type reappears (as its sorted replacement, under
the same name) with permuted field keys, enum value keys and input field
keys, each field reappearing under its key with permuted argument keys; and
each directive reappears under its name with permuted argument keys. -/
theorem sort_structural_equivalence (cmp : Comparator) (schema : SchemaConfig)
    (hwf : SchemaWF schema) :
    ((lexicographicSortSchema cmp schema).types.map NamedType.name).Perm
        (schema.types.map NamedType.name)
    ∧ ((lexicographicSortSchema cmp schema).directives.map GraphQLDirective.name).Perm
        (schema.directives.map GraphQLDirective.name)
    ∧ (∀ t ∈ schema.types,
        sortNamedType cmp t ∈ (lexicographicSortSchema cmp schema).types
        ∧ (sortNamedType cmp t).name = t.name
        ∧ (objKeys (sortNamedType cmp t).fieldsOf).Perm (objKeys t.fieldsOf)
        ∧ (objKeys (sortNamedType cmp t).enumValuesOf).Perm (objKeys t.enumValuesOf)
        ∧ (objKeys (sortNamedType cmp t).inputFieldsOf).Perm (objKeys t.inputFieldsOf)
        ∧ (∀ kv ∈ t.fieldsOf, ∃ fc, (kv.1, fc) ∈ (sortNamedType cmp t).fieldsOf
            ∧ (objKeys fc.args).Perm (objKeys kv.2.args)))
    ∧ (∀ d ∈ schema.directives,
        sortDirective cmp d ∈ (lexicographicSortSchema cmp schema).directives
        ∧ (sortDirective cmp d).name = d.name
        ∧ (objKeys (sortDirective cmp d).args).Perm (objKeys d.args)) := by
  obtain ⟨hnd, hty, hdi⟩ := hwf
  refine ⟨?_, ?_, ?_, ?_⟩
  · rw [lexSortSchema_types_names]
    exact (sortBy_perm cmp NamedType.name schema.types).map NamedType.name
  · rw [lexicographicSortSchema_directives, List.map_map]
    have he : List.map (GraphQLDirective.name ∘ sortDirective cmp)
        (sortByName cmp GraphQLDirective.name schema.directives)
        = List.map GraphQLDirective.name
            (sortByName cmp GraphQLDirective.name schema.directives) :=
      List.map_congr_left (fun d _ => rfl)
    rw [he]
    exact (sortBy_perm cmp GraphQLDirective.name schema.directives).map GraphQLDirective.name
  · intro t ht
    have hmem : sortNamedType cmp t ∈ (lexicographicSortSchema cmp schema).types := by
      rw [lexSortSchema_types_eq]
      exact List.mem_map.mpr ⟨t, (sortBy_perm _ _ _).mem_iff.mpr ht, rfl⟩
    obtain ⟨hf, hev, hif, _, _, hargs⟩ :=
      sortNamedType_collections_perm cmp t (hty t ht).1
    exact ⟨hmem, sortNamedType_name cmp t, hf, hev, hif, hargs⟩
  · intro d hd
    refine ⟨?_, rfl, objKeys_sortObjMap_perm cmp d.args _⟩
    rw [lexicographicSortSchema_directives]
    exact List.mem_map.mpr ⟨d, (sortBy_perm _ _ _).mem_iff.mpr hd, rfl⟩

/-- C4 witness: the structural-equivalence statement at the concrete mixed
schema. -/
theorem sort_structural_equivalence_witness :
    ((lexicographicSortSchema defaultCompare mixedSchema).types.map NamedType.name).Perm
        (mixedSchema.types.map NamedType.name)
    ∧ sortNamedType defaultCompare typeA
        ∈ (lexicographicSortSchema defaultCompare mixedSchema).types := by
  have h := sort_structural_equivalence defaultCompare mixedSchema (by decide)
  exact ⟨h.1, (h.2.2.1 typeA (by decide)).1⟩

/-- C5: `lexicographicSortSchema` is idempotent on well-formed schemas under
a total transitive comparator; on the value level (the embedding's
counterpart of name-for-name identical ordering, since JS object identity is
not part of the value model) re-sorting the sorted schema reproduces it
exactly. -/
theorem sort_idempotent (cmp : Comparator) (htot : CmpTotal cmp) (htr : CmpTrans cmp)
    (schema : SchemaConfig) (hwf : SchemaWF schema) :
    lexicographicSortSchema cmp (lexicographicSortSchema cmp schema)
      = lexicographicSortSchema cmp schema := by
  obtain ⟨hnd, hty, hdi⟩ := hwf
  have htypes_eq := lexSortSchema_types_eq cmp schema
  have hpw : ((sortByName cmp NamedType.name schema.types).map (sortNamedType cmp)).Pairwise
      (fun t u => cmp t.name u.name ≤ 0) := by
    refine List.Pairwise.map (sortNamedType cmp) ?_
      (sortBy_pairwise cmp NamedType.name htot htr schema.types)
    intro a b h
    rw [sortNamedType_name, sortNamedType_name]
    exact h
  have hsortagain :
      sortByName cmp NamedType.name (lexicographicSortSchema cmp schema).types
        = (lexicographicSortSchema cmp schema).types := by
    rw [htypes_eq]
    exact sortBy_eq_self cmp NamedType.name _ hpw
  have hmap_eq : buildTypeMap cmp (lexicographicSortSchema cmp schema)
      = buildTypeMap cmp schema := by
    rw [buildTypeMap, hsortagain, htypes_eq, keyValMap, List.map_map, buildTypeMap, keyValMap]
    apply List.map_congr_left
    intro t ht
    have hwft : NamedTypeWF t :=
      hty t ((sortBy_perm cmp NamedType.name schema.types).mem_iff.mp ht)
    simp only [Function.comp]
    rw [sortNamedType_name, sortNamedType_idem cmp htot htr t hwft]
  have hdir_eq := lexicographicSortSchema_directives cmp schema
  have hdpw : ((sortByName cmp GraphQLDirective.name schema.directives).map
      (sortDirective cmp)).Pairwise (fun d e => cmp d.name e.name ≤ 0) := by
    refine List.Pairwise.map (sortDirective cmp) ?_
      (sortBy_pairwise cmp GraphQLDirective.name htot htr schema.directives)
    intro a b h
    exact h
  have hdir_again : sortByName cmp GraphQLDirective.name
      ((sortByName cmp GraphQLDirective.name schema.directives).map (sortDirective cmp))
      = (sortByName cmp GraphQLDirective.name schema.directives).map (sortDirective cmp) :=
    sortBy_eq_self cmp GraphQLDirective.name _ hdpw
  have hdir_idem : ((sortByName cmp GraphQLDirective.name schema.directives).map
        (sortDirective cmp)).map (sortDirective cmp)
      = (sortByName cmp GraphQLDirective.name schema.directives).map (sortDirective cmp) := by
    rw [List.map_map]
    apply List.map_congr_left
    intro d hd
    simp only [Function.comp]
    exact sortDirective_idem cmp htot htr d
      (hdi d ((sortBy_perm cmp GraphQLDirective.name schema.directives).mem_iff.mp hd))
  apply SchemaConfig.ext
  · rw [lexicographicSortSchema_types, hmap_eq, ← lexicographicSortSchema_types]
  · rw [lexicographicSortSchema_directives, hdir_eq, hdir_again, hdir_idem, ← hdir_eq]
  · rw [lexicographicSortSchema_query, hmap_eq, lexicographicSortSchema_query]
    exact replaceMaybeType_idem _ (buildTypeMap_entry_name cmp schema) schema.query
  · rw [lexicographicSortSchema_mutation, hmap_eq, lexicographicSortSchema_mutation]
    exact replaceMaybeType_idem _ (buildTypeMap_entry_name cmp schema) schema.mutation
  · rw [lexicographicSortSchema_subscription, hmap_eq, lexicographicSortSchema_subscription]
    exact replaceMaybeType_idem _ (buildTypeMap_entry_name cmp schema) schema.subscription
  · rfl

/-- C5 witness: idempotence at the concrete mixed schema. -/
theorem sort_idempotent_witness :
    lexicographicSortSchema defaultCompare (lexicographicSortSchema defaultCompare mixedSchema)
      = lexicographicSortSchema defaultCompare mixedSchema :=
  sort_idempotent defaultCompare defaultCompare_total defaultCompare_trans mixedSchema
    (by decide)

/-- C7: a scalar or introspection-reserved type of the input passes through
`lexicographicSortSchema` completely unchanged (the same value, hence the
same internal field order), while any other kind present in the input is
rebuilt, appears in the output, and has all its collections sorted. -/
theorem sort_passthrough (cmp : Comparator) (htot : CmpTotal cmp) (htr : CmpTrans cmp)
    (schema : SchemaConfig) (type : NamedType) (hmem : type ∈ schema.types) :
    ((isScalarType type || isIntrospectionType type) = true →
      sortNamedType cmp type = type
      ∧ type ∈ (lexicographicSortSchema cmp schema).types)
    ∧ ((isScalarType type || isIntrospectionType type) = false →
      sortNamedType cmp type ∈ (lexicographicSortSchema cmp schema).types
      ∧ NamedTypeSorted cmp (sortNamedType cmp type)) := by
  have hmem' : sortNamedType cmp type ∈ (lexicographicSortSchema cmp schema).types := by
    rw [lexSortSchema_types_eq]
    exact List.mem_map.mpr ⟨type, (sortBy_perm _ _ _).mem_iff.mpr hmem, rfl⟩
  constructor
  · intro hg
    refine ⟨sortNamedType_passthrough cmp type hg, ?_⟩
    rw [← sortNamedType_passthrough cmp type hg]
    exact hmem'
  · intro hg
    exact ⟨hmem', sortNamedType_sorted cmp htot htr type hg⟩

/-- C7 witness: the scalar of the mixed schema passes through unchanged and
the rebuilt object type `A` appears sorted. -/
theorem sort_passthrough_witness :
    (sortNamedType defaultCompare scalarS = scalarS
      ∧ scalarS ∈ (lexicographicSortSchema defaultCompare mixedSchema).types)
    ∧ NamedTypeSorted defaultCompare (sortNamedType defaultCompare typeA) := by
  have h1 := sort_passthrough defaultCompare defaultCompare_total defaultCompare_trans
    mixedSchema scalarS (by decide)
  have h2 := sort_passthrough defaultCompare defaultCompare_total defaultCompare_trans
    mixedSchema typeA (by decide)
  exact ⟨h1.1 (by decide), (h2.2 (by decide)).2⟩

/-- C8: for each root operation slot — an absent input root stays absent in
the output; a present input root whose type belongs to the type set is
replaced by exactly the sorted replacement instance stored in the name index
under that type's name (the value found by `replaceNamedType`, whose binding
is in `buildTypeMap`). -/
theorem sort_root_rewrite (cmp : Comparator) (schema : SchemaConfig)
    (hnd : (schema.types.map NamedType.name).Nodup) :
    ((schema.query = none → (lexicographicSortSchema cmp schema).query = none)
      ∧ (∀ t, schema.query = some t → t ∈ schema.types →
          (lexicographicSortSchema cmp schema).query = some (sortNamedType cmp t)
          ∧ replaceNamedType (buildTypeMap cmp schema) t.name = some (sortNamedType cmp t)
          ∧ (t.name, sortNamedType cmp t) ∈ buildTypeMap cmp schema))
    ∧ ((schema.mutation = none → (lexicographicSortSchema cmp schema).mutation = none)
      ∧ (∀ t, schema.mutation = some t → t ∈ schema.types →
          (lexicographicSortSchema cmp schema).mutation = some (sortNamedType cmp t)
          ∧ replaceNamedType (buildTypeMap cmp schema) t.name = some (sortNamedType cmp t)
          ∧ (t.name, sortNamedType cmp t) ∈ buildTypeMap cmp schema))
    ∧ ((schema.subscription = none →
          (lexicographicSortSchema cmp schema).subscription = none)
      ∧ (∀ t, schema.subscription = some t → t ∈ schema.types →
          (lexicographicSortSchema cmp schema).subscription = some (sortNamedType cmp t)
          ∧ replaceNamedType (buildTypeMap cmp schema) t.name = some (sortNamedType cmp t)
          ∧ (t.name, sortNamedType cmp t) ∈ buildTypeMap cmp schema)) := by
  have hlook : ∀ t ∈ schema.types,
      replaceNamedType (buildTypeMap cmp schema) t.name = some (sortNamedType cmp t) :=
    fun t ht => replaceNamedType_buildTypeMap cmp schema hnd ht
  have hbind : ∀ t ∈ schema.types, (t.name, sortNamedType cmp t) ∈ buildTypeMap cmp schema :=
    fun t ht => List.mem_map.mpr ⟨t, (sortBy_perm _ _ _).mem_iff.mpr ht, rfl⟩
  refine ⟨⟨?_, ?_⟩, ⟨?_, ?_⟩, ⟨?_, ?_⟩⟩
  · intro hq
    rw [lexicographicSortSchema_query, hq, replaceMaybeType_none]
  · intro t hq ht
    rw [lexicographicSortSchema_query, hq, replaceMaybeType_some, hlook t ht]
    exact ⟨rfl, rfl, hbind t ht⟩
  · intro hq
    rw [lexicographicSortSchema_mutation, hq, replaceMaybeType_none]
  · intro t hq ht
    rw [lexicographicSortSchema_mutation, hq, replaceMaybeType_some, hlook t ht]
    exact ⟨rfl, rfl, hbind t ht⟩
  · intro hq
    rw [lexicographicSortSchema_subscription, hq, replaceMaybeType_none]
  · intro t hq ht
    rw [lexicographicSortSchema_subscription, hq, replaceMaybeType_some, hlook t ht]
    exact ⟨rfl, rfl, hbind t ht⟩

/-- C8 witness: the mixed schema's mutation root `B` is rewritten to the
sorted `B`, and its absent subscription root stays absent. -/
theorem sort_root_rewrite_witness :
    (lexicographicSortSchema defaultCompare mixedSchema).mutation
        = some (sortNamedType defaultCompare typeB)
    ∧ (lexicographicSortSchema defaultCompare mixedSchema).subscription = none := by
  have h := sort_root_rewrite defaultCompare mixedSchema (by decide)
  exact ⟨(h.2.1.2 typeB rfl (by decide)).1, h.2.2.1 rfl⟩

/-- C9: the kind dispatch of `sortNamedType` is total over the closed kind
set: written as the source's predicate cascade with its explicit fatal
`invariant(false)` branch (`sortNamedTypeChecked`), every named type is
handled by a recognized branch and the fatal branch is unreachable — the
cascade always returns `ok` of the rebuilt type.  (A value outside the
closed kind set does not exist in the model; the error branch is the loud
abort the source keeps for that impossible case.) -/
theorem sortNamedType_total_dispatch (cmp : Comparator) (type : NamedType) :
    sortNamedTypeChecked cmp type = Except.ok (sortNamedType cmp type) := by
  cases type with
  | scalar n intro m =>
    rw [sortNamedTypeChecked, if_pos (by simp [isScalarType]),
      sortNamedType_passthrough cmp _ (by simp [isScalarType])]
  | object n intro ifs fs m =>
    cases intro with
    | true =>
      rw [sortNamedTypeChecked, if_pos (by simp [isIntrospectionType]),
        sortNamedType_passthrough cmp _ (by simp [isIntrospectionType])]
    | false =>
      rw [sortNamedTypeChecked, if_neg (by simp [isScalarType, isIntrospectionType]),
        if_pos (by simp [isObjectType])]
  | interface n intro ifs fs m =>
    cases intro with
    | true =>
      rw [sortNamedTypeChecked, if_pos (by simp [isIntrospectionType]),
        sortNamedType_passthrough cmp _ (by simp [isIntrospectionType])]
    | false =>
      rw [sortNamedTypeChecked, if_neg (by simp [isScalarType, isIntrospectionType]),
        if_neg (by simp [isObjectType]), if_pos (by simp [isInterfaceType])]
  | union n intro ts m =>
    cases intro with
    | true =>
      rw [sortNamedTypeChecked, if_pos (by simp [isIntrospectionType]),
        sortNamedType_passthrough cmp _ (by simp [isIntrospectionType])]
    | false =>
      rw [sortNamedTypeChecked, if_neg (by simp [isScalarType, isIntrospectionType]),
        if_neg (by simp [isObjectType]), if_neg (by simp [isInterfaceType]),
        if_pos (by simp [isUnionType])]
  | enum n intro vs m =>
    cases intro with
    | true =>
      rw [sortNamedTypeChecked, if_pos (by simp [isIntrospectionType]),
        sortNamedType_passthrough cmp _ (by simp [isIntrospectionType])]
    | false =>
      rw [sortNamedTypeChecked, if_neg (by simp [isScalarType, isIntrospectionType]),
        if_neg (by simp [isObjectType]), if_neg (by simp [isInterfaceType]),
        if_neg (by simp [isUnionType]), if_pos (by simp [isEnumType])]
  | inputObject n intro fs m =>
    cases intro with
    | true =>
      rw [sortNamedTypeChecked, if_pos (by simp [isIntrospectionType]),
        sortNamedType_passthrough cmp _ (by simp [isIntrospectionType])]
    | false =>
      rw [sortNamedTypeChecked, if_neg (by simp [isScalarType, isIntrospectionType]),
        if_neg (by simp [isObjectType]), if_neg (by simp [isInterfaceType]),
        if_neg (by simp [isUnionType]), if_neg (by simp [isEnumType]),
        if_pos (by simp [isInputObjectType])]

/-- C10: the sort is stable under comparator ties — for any consistent
comparator (symmetric ties, transitive at-or-before) the subsequence of
elements whose keys tie with a given key is exactly the same, in the same
input order, before and after `sortBy`; likewise for the key sequence of
`sortObjMap`. -/
theorem sort_stable_on_ties (cmp : Comparator) (hsym : CmpTieSymm cmp) (htr : CmpTrans cmp)
    (mapToKey : α → String) (l : List α) (map : ObjMap β) (f : β → γ) (k : String) :
    (sortBy cmp mapToKey l).filter (fun x => cmp (mapToKey x) k == 0)
      = l.filter (fun x => cmp (mapToKey x) k == 0)
    ∧ (objKeys (sortObjMap cmp map f)).filter (fun key => cmp key k == 0)
      = (objKeys map).filter (fun key => cmp key k == 0) := by
  constructor
  · exact sortBy_filter_tie cmp hsym htr mapToKey l k
  · rw [objKeys_sortObjMap]
    exact sortBy_filter_tie cmp hsym htr id (objKeys map) k

/-- C10 witness: under the length-only comparator the two length-2 keys
`"bb"` and `"aa"` tie; they keep their input order through the sort. -/
theorem sort_stable_on_ties_witness :
    (sortBy lenCompare Prod.fst tieListEx).filter (fun x => lenCompare x.1 "dd" == 0)
      = tieListEx.filter (fun x => lenCompare x.1 "dd" == 0)
    ∧ tieListEx.filter (fun x => lenCompare x.1 "dd" == 0) = [("bb", 0), ("aa", 1)] := by
  have h := sort_stable_on_ties lenCompare lenCompare_tieSymm lenCompare_trans
    Prod.fst tieListEx ([] : ObjMap Nat) id "dd"
  exact ⟨h.1, by decide⟩

end GqlSort
